import Mathlib

/-!
# Sparse univariate polynomials (`polynomial_sparse.cpp`)

A shallow embedding of the class template `Polynomial<T>` and a verification of
its algebraic contract.

## Embedding

* The private member `map<size_t, T> pol` is an association list `List (Nat × T)`
  read in ascending key order.  A `std::map` always has strictly increasing keys;
  that structural fact is the predicate `Sorted`, a hypothesis of every theorem
  that quantifies over polynomials.  The zero-free invariant of the data model is
  the separate predicate `ZeroFree`.
* `size_t` keys are `Nat` and the `int` returned by `Degree()` is `Int`: degrees
  are taken below `2^31`, where the conversions between both types are exact.
* The coefficient type `T` is a type with `0`, `1`, `+`, `-`, `*`, `/` and a
  decidable equality; `T()` and `T(0)` are `0`.
* `back()` on an empty mapping and a coefficient division by `T(0)` are undefined
  in the source; the embedding reports them as faults.  The two `while` loops
  whose termination depends on the data (in `operator/` and `operator,`) take a
  fuel argument and report `Fault.outOfFuel` when it runs out.
* `operator<<` is the text it writes, a `String`; writing a coefficient is the
  parameter `text`, writing a degree is its decimal numeral.
* `CInt` is the coefficient type `int`, whose `/` truncates toward zero.
* `powSpec`, `composeSpec`, `termSpec`, `concatSpec` and `renderSpec` are not
  translations of code: they word the specification, for comparison with the code.
-/

namespace SparsePolynomial

set_option linter.unusedSectionVars false

/-- Ways in which a run of the embedded code fails to produce a value. -/
inductive Fault where
  | emptyBack
  | divByZero
  | outOfFuel
  deriving DecidableEq, Repr

/-- The member `pol`: the stored terms `(degree, coefficient)` in ascending order. -/
abbrev Pol (T : Type) := List (Nat × T)

/-- Structural invariant of `std::map`: keys strictly increasing. -/
def Sorted {T : Type} (p : Pol T) : Prop := p.Pairwise (fun a b => a.1 < b.1)

instance {T : Type} (p : Pol T) : Decidable (Sorted p) := by
  unfold Sorted; infer_instance

section Code

variable {T : Type} [Zero T] [One T] [Add T] [Sub T] [Mul T] [Div T] [DecidableEq T]

/-- Zero-free invariant: no stored coefficient equals `T(0)`. -/
def ZeroFree (p : Pol T) : Prop := ∀ e ∈ p, e.2 ≠ 0

instance (p : Pol T) : Decidable (ZeroFree p) := by
  unfold ZeroFree; infer_instance

/-- The access `pol[k]` followed by an update of the referenced coefficient
(`pol[k] += c`, `pol[k] -= c`, `pol[k] = c`): an absent key is first inserted
with the value `T()`. -/
def modify (f : T → T) (k : Nat) : Pol T → Pol T
  | [] => [(k, f 0)]
  | (k', v) :: rest =>
    if k < k' then (k, f 0) :: (k', v) :: rest
    else if k = k' then (k', f v) :: rest
    else (k', v) :: modify f k rest

/-- The member function `size()`. -/
def size (p : Pol T) : Nat := p.length

/-- The member function `back()`: the coefficient of the last stored term. -/
def back (p : Pol T) : Except Fault T :=
  match p.getLast? with
  | some e => .ok e.2
  | none => .error .emptyBack

/-- The member function `Degree()`. -/
def Degree (p : Pol T) : Int :=
  match p.getLast? with
  | some e => (e.1 : Int)
  | none => -1

/-- The member function `Cut()`: erase the last term while its coefficient is `T(0)`. -/
def Cut (p : Pol T) : Pol T := p.rdropWhile (fun e => decide (e.2 = 0))

/-- The member function `Sieve()`: erase every term whose coefficient is `T(0)`. -/
def Sieve (p : Pol T) : Pol T := p.filter (fun e => decide (e.2 ≠ 0))

/-- Division of coefficients, undefined for the divisor `T(0)`. -/
def cdiv (a b : T) : Except Fault T :=
  if b = 0 then .error .divByZero else .ok (a / b)

/-- The loop shared by `Polynomial(const vector<T>&)` and `Polynomial(Iter, const Iter&)`. -/
def fromLoop : Nat → List T → Pol T → Pol T
  | _, [], pol => pol
  | i, c :: rest, pol =>
    fromLoop (i + 1) rest (if c ≠ 0 then modify (fun _ => c) i pol else pol)

/-- The constructor `Polynomial(const T& p_0 = T())`. -/
def fromScalar (p_0 : T) : Pol T :=
  if p_0 ≠ 0 then modify (fun _ => p_0) 0 [] else []

/-- The constructor `Polynomial(Iter first, const Iter& last)`, on the sequence
of values the iterator range yields. -/
def fromRange (r : List T) : Pol T := fromLoop 0 r []

/-- The function `operator+`. -/
def add (p1 p2 : Pol T) : Pol T :=
  let res : Pol T := []
  let res := p1.foldl (fun res e => modify (fun v => v + e.2) e.1 res) res
  let res := p2.foldl (fun res e => modify (fun v => v + e.2) e.1 res) res
  Sieve res

/-- The function `operator-`. -/
def sub (p1 p2 : Pol T) : Pol T :=
  let res : Pol T := []
  let res := p1.foldl (fun res e => modify (fun v => v + e.2) e.1 res) res
  let res := p2.foldl (fun res e => modify (fun v => v - e.2) e.1 res) res
  Sieve res

/-- The function `operator*`. -/
def mul (p1 p2 : Pol T) : Pol T :=
  let res : Pol T := []
  let res := p1.foldl (fun res e1 =>
    p2.foldl (fun res e2 => modify (fun v => v + e1.2 * e2.2) (e1.1 + e2.1) res) res) res
  Sieve res

/-- The member function `operator[]`. -/
def coeffAt (p : Pol T) (i : Nat) : T :=
  match p.lookup i with
  | some c => c
  | none => 0

/-- The loop of `FastPow`. -/
def FastPowLoop {Tx : Type} (mulx : Tx → Tx → Tx) (res x : Tx) (n : Nat) : Tx :=
  if n > 0 then
    FastPowLoop mulx (if n % 2 = 1 then mulx res x else res) (mulx x x) (n / 2)
  else res
termination_by n
decreasing_by omega

/-- The member template `FastPow<Tx>`; `onex` is `Tx(1)` and `mulx` is `*=` on `Tx`. -/
def FastPow {Tx : Type} (onex : Tx) (mulx : Tx → Tx → Tx) (x : Tx) (n : Nat) : Tx :=
  FastPowLoop mulx onex x n

/-- The member function `operator()`: the loop state is `(res, cur, prev_deg)`. -/
def eval (p : Pol T) (x : T) : T :=
  (p.foldl (fun (st : T × T × Nat) e =>
    let cur := st.2.1 * FastPow (1 : T) (fun a b => a * b) x (e.1 - st.2.2)
    (st.1 + cur * e.2, cur, e.1)) ((0 : T), (1 : T), 0)).1

/-- The member function `operator&`: `compose self p` is `self & p`; the
coefficient `coef` in `cur * coef` is converted by `Polynomial(const T&)`. -/
def compose (self p : Pol T) : Pol T :=
  (self.foldl (fun (st : Pol T × Pol T × Nat) e =>
    let cur := mul st.2.1 (FastPow (fromScalar (1 : T)) mul p (e.1 - st.2.2))
    (add st.1 (mul cur (fromScalar e.2)), cur, e.1))
    (fromScalar (0 : T), fromScalar (1 : T), 0)).1

/-- The `while (deg >= 0)` loop of `operator/`, on the working dividend `p` and
the quotient `res`; it returns the quotient and the final working dividend. -/
def divLoop (q : Pol T) (fuel : Nat) (p res : Pol T) (deg : Int) :
    Except Fault (Pol T × Pol T) :=
  if deg < 0 then .ok (res, p) else
  match fuel with
  | 0 => .error .outOfFuel
  | fuel + 1 => do
    let pb ← back p
    let qb ← back q
    let d ← cdiv pb qb
    let res := modify (fun _ => d) deg.toNat res
    let p := q.foldl (fun p e => modify (fun v => v - e.2 * d) (e.1 + deg.toNat) p) p
    let p := Cut p
    divLoop q fuel p res (Degree p - Degree q)

/-- The function `operator/`. -/
def div (fuel : Nat) (p q : Pol T) : Except Fault (Pol T) :=
  let deg := Degree p - Degree q
  if deg < 0 then .ok (fromScalar (0 : T))
  else do
    let r ← divLoop q fuel p [] deg
    pure r.1

/-- The function `operator%`. -/
def mod (fuel : Nat) (p q : Pol T) : Except Fault (Pol T) := do
  let d ← div fuel p q
  pure (sub p (mul d q))

/-- One pass of the body of the `while (deg >= 0)` loop of `operator/`: the
updated quotient and the updated working dividend. -/
def divBody (q p res : Pol T) (deg : Int) : Except Fault (Pol T × Pol T) := do
  let pb ← back p
  let qb ← back q
  let d ← cdiv pb qb
  let res := modify (fun _ => d) deg.toNat res
  let p := q.foldl (fun p e => modify (fun v => v - e.2 * d) (e.1 + deg.toNat) p) p
  let p := Cut p
  pure (res, p)

/-- The `for` loop of `operator<<` over the terms from `rbegin()` on; `atBegin`
is `it == p.pol.rbegin()`, `text` is `out << cur` for a coefficient, and the
result is the text written to `out`. -/
def renderLoop [Neg T] [LT T] [DecidableRel (fun a b : T => a < b)] (text : T → String) :
    Bool → List (Nat × T) → String → String
  | _, [], out => out
  | atBegin, (i, cur) :: rest, out =>
    if cur = 0 then renderLoop text false rest out
    else
      let out := if atBegin = false ∧ 0 < cur then out ++ "+" else out
      if i = 0 then out ++ text cur
      else
        let out := if cur = -1 then out ++ "-"
          else if cur ≠ 1 then out ++ text cur ++ "*" else out
        let out := out ++ "x"
        let out := if i > 1 then out ++ "^" ++ toString i else out
        renderLoop text false rest out

/-- The function `operator<<`: the text it writes. -/
def render [Neg T] [LT T] [DecidableRel (fun a b : T => a < b)] (text : T → String)
    (p : Pol T) : String :=
  if size p = 0 then text 0 else renderLoop text true p.reverse ""

/-- Rendering rule of the specification for one term; `first` says that the
term is the first one rendered. -/
def termSpec [Neg T] [LT T] [DecidableRel (fun a b : T => a < b)] (text : T → String)
    (first : Bool) (e : Nat × T) : String :=
  (if first = false ∧ 0 < e.2 then "+" else "") ++
  (if e.1 = 0 then text e.2
   else
    (if e.2 = 1 then "" else if e.2 = -1 then "-" else text e.2 ++ "*") ++ "x" ++
    (if 2 ≤ e.1 then "^" ++ toString e.1 else ""))

/-- Concatenation of the rendered non-first terms, in the order given. -/
def concatSpec [Neg T] [LT T] [DecidableRel (fun a b : T => a < b)] (text : T → String) :
    List (Nat × T) → String
  | [] => ""
  | e :: rest => termSpec text false e ++ concatSpec text rest

/-- Canonical rendering as the specification words it: the terms in descending
degree order, each rendered by `termSpec`; the zero polynomial is the text of `T(0)`. -/
def renderSpec [Neg T] [LT T] [DecidableRel (fun a b : T => a < b)] (text : T → String)
    (p : Pol T) : String :=
  match p.reverse with
  | [] => text 0
  | e :: rest => termSpec text true e ++ concatSpec text rest

/-- Power of the specification: `d`-fold polynomial multiplication, `s^0` being the
constant polynomial `1`. -/
def powSpec (s : Pol T) : Nat → Pol T
  | 0 => fromScalar (1 : T)
  | d + 1 => mul (powSpec s d) s

/-- Composition as the specification words it: the polynomial sum, over the stored
terms `(d, c)` of `p`, of `c * s^d`. -/
def composeSpec (p s : Pol T) : Pol T :=
  p.foldl (fun acc e => add acc (mul (fromScalar e.2) (powSpec s e.1))) (fromScalar (0 : T))

/-- The coefficient type `int`: integers whose `/` truncates toward zero
(values are taken in the range where `int` does not overflow). -/
structure CInt where
  val : Int
  deriving DecidableEq, Repr

instance : Zero CInt := ⟨⟨0⟩⟩

instance : One CInt := ⟨⟨1⟩⟩

instance : Add CInt := ⟨fun a b => ⟨a.val + b.val⟩⟩

instance : Sub CInt := ⟨fun a b => ⟨a.val - b.val⟩⟩

instance : Mul CInt := ⟨fun a b => ⟨a.val * b.val⟩⟩

instance : Div CInt := ⟨fun a b => ⟨Int.tdiv a.val b.val⟩⟩

end Code

/-- The polynomial a stored mapping denotes: its coefficient function is the
lookup `operator[]`, and its support is the set of keys with a nonzero lookup. -/
def toPoly {T : Type} [Semiring T] [DecidableEq T] (p : Pol T) : Polynomial T :=
  ⟨{ support := ((p.map Prod.fst).filter (fun k => decide (coeffAt p k ≠ 0))).toFinset
     toFun := coeffAt p
     mem_support_toFun := by
       intro a
       have key : ∀ l : Pol T, coeffAt l a ≠ 0 → a ∈ l.map Prod.fst := by
         intro l
         induction l with
         | nil => intro h; exact absurd rfl h
         | cons e rest ih =>
           intro h
           by_cases hk : a = e.1
           · simp [hk]
           · have hb : (a == e.1) = false := by simpa using hk
             have : coeffAt (e :: rest) a = coeffAt rest a := by
               obtain ⟨k, v⟩ := e
               simp only [coeffAt, List.lookup, hb]
             rw [this] at h
             exact List.mem_cons_of_mem _ (ih h)
       simp only [List.mem_toFinset, List.mem_filter, decide_eq_true_eq]
       exact ⟨fun h => h.2, fun h => ⟨key p h, h⟩⟩ }⟩

/-! ## The stored mapping: lookups and updates -/

section MapLemmas

variable {T : Type} [Zero T] [DecidableEq T]

theorem coeffAt_nil (j : Nat) : coeffAt ([] : Pol T) j = 0 := rfl

theorem coeffAt_cons (k : Nat) (v : T) (rest : Pol T) (j : Nat) :
    coeffAt ((k, v) :: rest) j = if j = k then v else coeffAt rest j := by
  unfold coeffAt
  by_cases h : j = k
  · subst h; simp [List.lookup]
  · have hb : (j == k) = false := by simpa using h
    simp [List.lookup, hb, h]

theorem coeffAt_eq_zero_of_lt (p : Pol T) (j : Nat) (h : ∀ e ∈ p, j < e.1) :
    coeffAt p j = 0 := by
  induction p with
  | nil => rfl
  | cons e rest ih =>
    obtain ⟨k, v⟩ := e
    have hk : j < k := h (k, v) (List.mem_cons_self _ _)
    rw [coeffAt_cons, if_neg (by omega)]
    exact ih (fun e he => h e (List.mem_cons_of_mem _ he))

theorem sorted_nil : Sorted ([] : Pol T) := List.Pairwise.nil

theorem sorted_cons {e : Nat × T} {rest : Pol T} :
    Sorted (e :: rest) ↔ (∀ e' ∈ rest, e.1 < e'.1) ∧ Sorted rest := by
  unfold Sorted; exact List.pairwise_cons

theorem coeffAt_of_mem {p : Pol T} (hs : Sorted p) {e : Nat × T} (he : e ∈ p) :
    coeffAt p e.1 = e.2 := by
  induction p with
  | nil => cases he
  | cons a rest ih =>
    obtain ⟨k, v⟩ := a
    rw [sorted_cons] at hs
    rw [coeffAt_cons]
    rcases List.mem_cons.1 he with h | h
    · subst h; simp
    · have := hs.1 e h
      rw [if_neg (by simp at this; omega)]
      exact ih hs.2 h

theorem mem_modify {f : T → T} {k : Nat} {m : Pol T} {e : Nat × T}
    (he : e ∈ modify f k m) : e.1 = k ∨ e ∈ m := by
  induction m with
  | nil => simp [modify] at he; left; rw [he]
  | cons a rest ih =>
    obtain ⟨k', v⟩ := a
    simp only [modify] at he
    split_ifs at he with h1 h2
    · rcases List.mem_cons.1 he with h | h
      · left; rw [h]
      · right; exact h
    · rcases List.mem_cons.1 he with h | h
      · left; rw [h]; exact h2.symm
      · right; exact List.mem_cons_of_mem _ h
    · rcases List.mem_cons.1 he with h | h
      · right; rw [h]; exact List.mem_cons_self _ _
      · rcases ih h with h' | h'
        · left; exact h'
        · right; exact List.mem_cons_of_mem _ h'

theorem sorted_modify (f : T → T) (k : Nat) {m : Pol T} (hm : Sorted m) :
    Sorted (modify f k m) := by
  induction m with
  | nil => simp [modify, Sorted]
  | cons a rest ih =>
    obtain ⟨k', v⟩ := a
    rw [sorted_cons] at hm
    simp only [modify]
    split_ifs with h1 h2
    · rw [sorted_cons]
      refine ⟨?_, sorted_cons.2 hm⟩
      intro e he
      rcases List.mem_cons.1 he with h | h
      · rw [h]; exact h1
      · have := hm.1 e h; simp at this ⊢; omega
    · rw [sorted_cons]; exact hm
    · rw [sorted_cons]
      refine ⟨?_, ih hm.2⟩
      intro e he
      rcases mem_modify he with h | h
      · simp; omega
      · exact hm.1 e h

theorem coeffAt_modify (f : T → T) (k : Nat) {m : Pol T} (hm : Sorted m) (j : Nat) :
    coeffAt (modify f k m) j = if j = k then f (coeffAt m k) else coeffAt m j := by
  induction m with
  | nil => simp [modify, coeffAt_cons, coeffAt_nil]
  | cons a rest ih =>
    obtain ⟨k', v⟩ := a
    rw [sorted_cons] at hm
    simp only [modify]
    by_cases h1 : k < k'
    · have hz : coeffAt ((k', v) :: rest) k = 0 := by
        apply coeffAt_eq_zero_of_lt
        intro e he
        rcases List.mem_cons.1 he with h | h
        · rw [h]; exact h1
        · have := hm.1 e h; simp at this ⊢; omega
      rw [if_pos h1, coeffAt_cons, hz]
    · rw [if_neg h1]
      by_cases h2 : k = k'
      · subst h2
        rw [if_pos rfl, coeffAt_cons, coeffAt_cons, coeffAt_cons, if_pos rfl]
        by_cases hj : j = k <;> simp [hj]
      · rw [if_neg h2, coeffAt_cons, ih hm.2, coeffAt_cons, coeffAt_cons, if_neg h2]
        by_cases h3 : j = k'
        · have : j ≠ k := fun h => h2 (h ▸ h3)
          simp [h3, this, Ne.symm h2]
        · simp [h3]

theorem zeroFree_Sieve (m : Pol T) : ZeroFree (Sieve m) := by
  intro e he
  simpa using (List.mem_filter.1 he).2

theorem Sieve_sublist (m : Pol T) : (Sieve m).Sublist m := List.filter_sublist m

theorem sorted_of_sublist {a b : Pol T} (h : a.Sublist b) (hb : Sorted b) : Sorted a :=
  List.Pairwise.sublist h hb

theorem sorted_Sieve {m : Pol T} (hm : Sorted m) : Sorted (Sieve m) :=
  sorted_of_sublist (Sieve_sublist m) hm

theorem Sieve_eq_self {m : Pol T} (hm : ZeroFree m) : Sieve m = m := by
  unfold Sieve
  rw [List.filter_eq_self]
  intro e he
  simpa using hm e he

theorem coeffAt_Sieve {m : Pol T} (hm : Sorted m) (j : Nat) :
    coeffAt (Sieve m) j = coeffAt m j := by
  induction m with
  | nil => rfl
  | cons a rest ih =>
    obtain ⟨k, v⟩ := a
    rw [sorted_cons] at hm
    by_cases hv : v = 0
    · have h1 : Sieve ((k, v) :: rest) = Sieve rest := by
        simp [Sieve, hv]
      rw [h1, ih hm.2, coeffAt_cons]
      by_cases hj : j = k
      · rw [if_pos hj, hv]
        apply coeffAt_eq_zero_of_lt
        intro e he
        have := hm.1 e he
        simp at this; omega
      · rw [if_neg hj]
    · have h1 : Sieve ((k, v) :: rest) = (k, v) :: Sieve rest := by
        simp [Sieve, hv]
      rw [h1, coeffAt_cons, coeffAt_cons, ih hm.2]

/-- Canonical form: a sorted zero-free mapping is determined by its lookups. -/
theorem eq_of_coeffAt_eq {p q : Pol T} (hp : Sorted p) (hpz : ZeroFree p)
    (hq : Sorted q) (hqz : ZeroFree q) (h : ∀ k, coeffAt p k = coeffAt q k) : p = q := by
  induction p generalizing q with
  | nil =>
    cases q with
    | nil => rfl
    | cons e rest =>
      exfalso
      have := h e.1
      rw [coeffAt_of_mem hq (List.mem_cons_self _ _), coeffAt_nil] at this
      exact hqz e (List.mem_cons_self _ _) this.symm
  | cons a p' ih =>
    cases q with
    | nil =>
      exfalso
      have := h a.1
      rw [coeffAt_of_mem hp (List.mem_cons_self _ _), coeffAt_nil] at this
      exact hpz a (List.mem_cons_self _ _) this
    | cons b q' =>
      obtain ⟨k1, v1⟩ := a
      obtain ⟨k2, v2⟩ := b
      have hp' := sorted_cons.1 hp
      have hq' := sorted_cons.1 hq
      have hv1 : v1 ≠ 0 := hpz (k1, v1) (List.mem_cons_self _ _)
      have hv2 : v2 ≠ 0 := hqz (k2, v2) (List.mem_cons_self _ _)
      have zp : coeffAt p' k1 = 0 :=
        coeffAt_eq_zero_of_lt _ _ (fun e he => hp'.1 e he)
      have zq : coeffAt q' k2 = 0 :=
        coeffAt_eq_zero_of_lt _ _ (fun e he => hq'.1 e he)
      have hk : k1 = k2 := by
        rcases Nat.lt_trichotomy k1 k2 with hlt | heq | hgt
        · exfalso
          have := h k1
          rw [coeffAt_cons, if_pos rfl, coeffAt_cons, if_neg (by omega)] at this
          rw [coeffAt_eq_zero_of_lt q' k1 (fun e he => by
            have := hq'.1 e he; simp at this; omega)] at this
          exact hv1 this
        · exact heq
        · exfalso
          have := h k2
          rw [coeffAt_cons, if_neg (by omega), coeffAt_cons, if_pos rfl] at this
          rw [coeffAt_eq_zero_of_lt p' k2 (fun e he => by
            have := hp'.1 e he; simp at this; omega)] at this
          exact hv2 this.symm
      subst hk
      have hv : v1 = v2 := by
        have := h k1
        rwa [coeffAt_cons, if_pos rfl, coeffAt_cons, if_pos rfl] at this
      subst hv
      have htl : p' = q' := by
        apply ih hp'.2 (fun e he => hpz e (List.mem_cons_of_mem _ he)) hq'.2
          (fun e he => hqz e (List.mem_cons_of_mem _ he))
        intro j
        by_cases hj : j = k1
        · rw [hj, zp, zq]
        · have := h j
          rwa [coeffAt_cons, if_neg hj, coeffAt_cons, if_neg hj] at this
      rw [htl]

end MapLemmas

/-! ## The denoted polynomial -/

section Denotation

open Polynomial

variable {T : Type} [CommRing T] [DecidableEq T]

theorem coeff_toPoly (p : Pol T) (k : Nat) : (toPoly p).coeff k = coeffAt p k := rfl

theorem toPoly_ext {p q : Pol T} (h : ∀ k, coeffAt p k = coeffAt q k) :
    toPoly p = toPoly q := Polynomial.ext h

theorem eq_of_toPoly_eq {p q : Pol T} (hp : Sorted p) (hpz : ZeroFree p)
    (hq : Sorted q) (hqz : ZeroFree q) (h : toPoly p = toPoly q) : p = q :=
  eq_of_coeffAt_eq hp hpz hq hqz (fun k => by
    rw [← coeff_toPoly, ← coeff_toPoly, h])

theorem toPoly_nil : toPoly ([] : Pol T) = 0 := by
  ext k; simp [coeff_toPoly, coeffAt_nil]

theorem toPoly_modify (g : T → T) (c : T) (hg : ∀ v, g v = v + c) (k : Nat)
    {m : Pol T} (hm : Sorted m) :
    toPoly (modify g k m) = toPoly m + monomial k c := by
  ext j
  rw [coeff_add, coeff_toPoly, coeff_toPoly, coeffAt_modify g k hm, coeff_monomial]
  by_cases h : j = k
  · subst h; simp [hg]
  · have h' : ¬ k = j := fun e => h e.symm
    simp [h, h']

theorem toPoly_Sieve {m : Pol T} (hm : Sorted m) : toPoly (Sieve m) = toPoly m :=
  toPoly_ext (coeffAt_Sieve hm)

/-- A loop of compound updates `pol[key e] += val e` adds the monomials it visits. -/
theorem foldl_modify {α : Type} (key : α → Nat) (g : α → T → T) (val : α → T)
    (hg : ∀ e v, g e v = v + val e) (L : List α) {m : Pol T} (hm : Sorted m) :
    Sorted (L.foldl (fun res e => modify (g e) (key e) res) m) ∧
    toPoly (L.foldl (fun res e => modify (g e) (key e) res) m)
      = toPoly m + (L.map (fun e => monomial (key e) (val e))).sum := by
  induction L generalizing m with
  | nil => simp [hm]
  | cons a rest ih =>
    have h1 := sorted_modify (g a) (key a) hm
    obtain ⟨hs, ht⟩ := ih h1
    refine ⟨hs, ?_⟩
    rw [List.foldl_cons, ht, toPoly_modify (g a) (val a) (hg a) (key a) hm]
    simp [add_assoc]

theorem toPoly_eq_sum {p : Pol T} (hp : Sorted p) :
    toPoly p = (p.map (fun e => monomial e.1 e.2)).sum := by
  induction p with
  | nil => simp [toPoly_nil]
  | cons a rest ih =>
    obtain ⟨k, v⟩ := a
    rw [sorted_cons] at hp
    rw [List.map_cons, List.sum_cons, ← ih hp.2]
    ext j
    rw [coeff_add, coeff_toPoly, coeff_toPoly, coeffAt_cons, coeff_monomial]
    by_cases h : j = k
    · subst h
      rw [coeffAt_eq_zero_of_lt rest j (fun e he => hp.1 e he)]
      simp
    · have h' : ¬ k = j := fun e => h e.symm
      simp [h, h']

theorem sorted_add (p q : Pol T) : Sorted (add p q) := by
  unfold add
  apply sorted_Sieve
  exact (foldl_modify Prod.fst (fun e v => v + e.2) Prod.snd (fun _ _ => rfl) q
    (foldl_modify Prod.fst (fun e v => v + e.2) Prod.snd (fun _ _ => rfl) p
      sorted_nil).1).1

theorem zeroFree_add (p q : Pol T) : ZeroFree (add p q) := zeroFree_Sieve _

theorem toPoly_add {p q : Pol T} (hp : Sorted p) (hq : Sorted q) :
    toPoly (add p q) = toPoly p + toPoly q := by
  have h1 := foldl_modify Prod.fst (fun e v => v + e.2) Prod.snd (fun _ _ => rfl) p
      (sorted_nil : Sorted ([] : Pol T))
  have h2 := foldl_modify Prod.fst (fun e v => v + e.2) Prod.snd (fun _ _ => rfl) q h1.1
  unfold add
  rw [toPoly_Sieve h2.1, h2.2, h1.2, toPoly_nil, zero_add, toPoly_eq_sum hp, toPoly_eq_sum hq]

theorem sorted_sub (p q : Pol T) : Sorted (sub p q) := by
  unfold sub
  apply sorted_Sieve
  exact (foldl_modify Prod.fst (fun e v => v - e.2) (fun e => - e.2)
    (fun _ _ => sub_eq_add_neg _ _) q
    (foldl_modify Prod.fst (fun e v => v + e.2) Prod.snd (fun _ _ => rfl) p
      sorted_nil).1).1

theorem zeroFree_sub (p q : Pol T) : ZeroFree (sub p q) := zeroFree_Sieve _

theorem toPoly_sub {p q : Pol T} (hp : Sorted p) (hq : Sorted q) :
    toPoly (sub p q) = toPoly p - toPoly q := by
  have h1 := foldl_modify Prod.fst (fun e v => v + e.2) Prod.snd (fun _ _ => rfl) p
      (sorted_nil : Sorted ([] : Pol T))
  have h2 := foldl_modify Prod.fst (fun e v => v - e.2) (fun e => - e.2)
    (fun _ _ => sub_eq_add_neg _ _) q h1.1
  unfold sub
  rw [toPoly_Sieve h2.1, h2.2, h1.2, toPoly_nil, zero_add, toPoly_eq_sum hp, toPoly_eq_sum hq]
  have : (q.map (fun e => monomial e.1 (-e.2))).sum
      = - (q.map (fun e => (monomial e.1 e.2 : T[X]))).sum := by
    induction q with
    | nil => simp
    | cons a rest ih =>
      simp only [List.map_cons, List.sum_cons]
      rw [ih (sorted_cons.1 hq).2 (foldl_modify Prod.fst (fun e v => v - e.2) (fun e => - e.2)
        (fun _ _ => sub_eq_add_neg _ _) rest h1.1)]
      simp [monomial_neg]; ring
  rw [this]; ring

theorem mul_loop (q : Pol T) (p : Pol T) {m : Pol T} (hm : Sorted m) :
    Sorted (p.foldl (fun res e1 =>
      q.foldl (fun res e2 => modify (fun v => v + e1.2 * e2.2) (e1.1 + e2.1) res) res) m) ∧
    toPoly (p.foldl (fun res e1 =>
      q.foldl (fun res e2 => modify (fun v => v + e1.2 * e2.2) (e1.1 + e2.1) res) res) m)
      = toPoly m + (p.map (fun e => monomial e.1 e.2)).sum
          * (q.map (fun e => monomial e.1 e.2)).sum := by
  induction p generalizing m with
  | nil => simp [hm]
  | cons a rest ih =>
    have h1 := foldl_modify (fun e2 : Nat × T => a.1 + e2.1) (fun e2 v => v + a.2 * e2.2)
      (fun e2 => a.2 * e2.2) (fun _ _ => rfl) q hm
    obtain ⟨hs, ht⟩ := ih h1.1
    refine ⟨hs, ?_⟩
    rw [List.foldl_cons, ht, h1.2, List.map_cons, List.sum_cons, add_mul, add_assoc]
    congr 2
    rw [← List.sum_map_mul_left]
    congr 1
    apply List.map_congr_left
    intro e _
    rw [monomial_mul_monomial]

theorem sorted_mul (p q : Pol T) : Sorted (mul p q) := by
  unfold mul
  exact sorted_Sieve (mul_loop q p sorted_nil).1

theorem zeroFree_mul (p q : Pol T) : ZeroFree (mul p q) := zeroFree_Sieve _

theorem toPoly_mul {p q : Pol T} (hp : Sorted p) (hq : Sorted q) :
    toPoly (mul p q) = toPoly p * toPoly q := by
  have h := mul_loop q p (sorted_nil : Sorted ([] : Pol T))
  unfold mul
  rw [toPoly_Sieve h.1, h.2, toPoly_nil, zero_add, toPoly_eq_sum hp, toPoly_eq_sum hq]

theorem fromScalar_eq (c : T) : fromScalar c = if c = 0 then [] else [(0, c)] := by
  unfold fromScalar
  by_cases h : c = 0 <;> simp [h, modify]

theorem sorted_fromScalar (c : T) : Sorted (fromScalar c) := by
  rw [fromScalar_eq]; split_ifs <;> simp [Sorted]

theorem zeroFree_fromScalar (c : T) : ZeroFree (fromScalar c) := by
  rw [fromScalar_eq]; split_ifs with h
  · intro e he; cases he
  · intro e he; simp at he; rw [he]; exact h

theorem toPoly_fromScalar (c : T) : toPoly (fromScalar c) = C c := by
  rw [fromScalar_eq]
  ext j
  rw [coeff_toPoly, coeff_C]
  split_ifs with h1 h2 h2
  · simp [coeffAt_nil, h1]
  · simp [coeffAt_nil, h1]
  · simp [coeffAt_cons, h2]
  · simp [coeffAt_cons, h2, coeffAt_nil]

/-- The loop of `FastPow` multiplies the accumulator by the `n`-th power, read
through any map `φ` that is multiplicative on values satisfying `P`. -/
theorem FastPowLoop_spec {Tx M : Type} [Monoid M] (mulx : Tx → Tx → Tx) (φ : Tx → M)
    (P : Tx → Prop) (hP : ∀ a b, P a → P b → P (mulx a b))
    (hφ : ∀ a b, P a → P b → φ (mulx a b) = φ a * φ b) (n : Nat) :
    ∀ res x : Tx, P res → P x →
      P (FastPowLoop mulx res x n) ∧ φ (FastPowLoop mulx res x n) = φ res * φ x ^ n := by
  induction n using Nat.strong_induction_on with
  | _ n ih =>
    intro res x hres hx
    rw [FastPowLoop]
    by_cases hn : n > 0
    · rw [if_pos hn]
      have hlt : n / 2 < n := by omega
      by_cases hodd : n % 2 = 1
      · rw [if_pos hodd]
        obtain ⟨h1, h2⟩ := ih (n / 2) hlt (mulx res x) (mulx x x) (hP _ _ hres hx)
          (hP _ _ hx hx)
        refine ⟨h1, ?_⟩
        rw [h2, hφ _ _ hres hx, hφ _ _ hx hx, ← pow_two, ← pow_mul, mul_assoc, ← pow_succ']
        congr 2; omega
      · rw [if_neg hodd]
        obtain ⟨h1, h2⟩ := ih (n / 2) hlt res (mulx x x) hres (hP _ _ hx hx)
        refine ⟨h1, ?_⟩
        rw [h2, hφ _ _ hx hx, ← pow_two, ← pow_mul]
        congr 2; omega
    · rw [if_neg hn]
      have : n = 0 := by omega
      subst this
      exact ⟨hres, by simp⟩

theorem FastPow_scalar (x : T) (n : Nat) :
    FastPow (1 : T) (fun a b => a * b) x n = x ^ n := by
  have := (FastPowLoop_spec (fun a b : T => a * b) id (fun _ => True)
    (fun _ _ _ _ => trivial) (fun _ _ _ _ => rfl) n 1 x trivial trivial).2
  simpa [FastPow] using this

theorem FastPow_pol {s : Pol T} (hs : Sorted s) (n : Nat) :
    Sorted (FastPow (fromScalar (1 : T)) mul s n) ∧
    toPoly (FastPow (fromScalar (1 : T)) mul s n) = toPoly s ^ n := by
  have := FastPowLoop_spec (mul : Pol T → Pol T → Pol T) toPoly Sorted
    (fun a b _ _ => sorted_mul a b) (fun a b ha hb => toPoly_mul ha hb) n
    (fromScalar (1 : T)) s (sorted_fromScalar _) hs
  refine ⟨this.1, ?_⟩
  have h2 := this.2
  rw [toPoly_fromScalar, map_one, one_mul] at h2
  exact h2

theorem eval_loop (x : T) (l : Pol T) (hl : Sorted l) (r : T) (prev : Nat)
    (hprev : ∀ e ∈ l, prev ≤ e.1) :
    (l.foldl (fun (st : T × T × Nat) e =>
      let cur := st.2.1 * FastPow (1 : T) (fun a b => a * b) x (e.1 - st.2.2)
      (st.1 + cur * e.2, cur, e.1)) (r, x ^ prev, prev)).1
      = r + (l.map (fun e => x ^ e.1 * e.2)).sum := by
  induction l generalizing r prev with
  | nil => simp
  | cons a rest ih =>
    obtain ⟨k, v⟩ := a
    rw [sorted_cons] at hl
    have hk : prev ≤ k := hprev (k, v) (List.mem_cons_self _ _)
    have hcur : x ^ prev * FastPow (1 : T) (fun a b => a * b) x (k - prev) = x ^ k := by
      rw [FastPow_scalar, ← pow_add]; congr 1; omega
    simp only [List.foldl_cons, hcur]
    rw [ih hl.2 (r + x ^ k * v) k (fun e he => le_of_lt (hl.1 e he))]
    simp [add_assoc]

theorem eval_eq {p : Pol T} (hp : Sorted p) (x : T) :
    eval p x = Polynomial.eval x (toPoly p) := by
  have h := eval_loop x p hp 0 0 (fun _ _ => Nat.zero_le _)
  rw [pow_zero] at h
  unfold eval
  rw [h, toPoly_eq_sum hp, zero_add]
  clear h hp
  induction p with
  | nil => simp
  | cons a rest ih =>
    simp only [List.map_cons, List.sum_cons, eval_add, eval_monomial]
    rw [ih]
    ring

theorem compose_loop {s : Pol T} (hs : Sorted s) (l : Pol T) (hl : Sorted l)
    (res cur : Pol T) (prev : Nat) (hres : Sorted res) (hcur : Sorted cur)
    (hc : toPoly cur = toPoly s ^ prev) (hprev : ∀ e ∈ l, prev ≤ e.1) :
    Sorted (l.foldl (fun (st : Pol T × Pol T × Nat) e =>
      let cur := mul st.2.1 (FastPow (fromScalar (1 : T)) mul s (e.1 - st.2.2))
      (add st.1 (mul cur (fromScalar e.2)), cur, e.1)) (res, cur, prev)).1 ∧
    toPoly (l.foldl (fun (st : Pol T × Pol T × Nat) e =>
      let cur := mul st.2.1 (FastPow (fromScalar (1 : T)) mul s (e.1 - st.2.2))
      (add st.1 (mul cur (fromScalar e.2)), cur, e.1)) (res, cur, prev)).1
      = toPoly res + (l.map (fun e => toPoly s ^ e.1 * C e.2)).sum := by
  induction l generalizing res cur prev with
  | nil => simp [hres]
  | cons a rest ih =>
    obtain ⟨k, v⟩ := a
    rw [sorted_cons] at hl
    have hk : prev ≤ k := hprev (k, v) (List.mem_cons_self _ _)
    have hfp := FastPow_pol hs (k - prev)
    have hcur' : toPoly (mul cur (FastPow (fromScalar (1 : T)) mul s (k - prev)))
        = toPoly s ^ k := by
      rw [toPoly_mul hcur hfp.1, hc, hfp.2, ← pow_add]; congr 1; omega
    simp only [List.foldl_cons]
    obtain ⟨h1, h2⟩ := ih hl.2 (add res (mul (mul cur (FastPow (fromScalar (1 : T)) mul s
      (k - prev))) (fromScalar v))) (mul cur (FastPow (fromScalar (1 : T)) mul s (k - prev)))
      k (sorted_add _ _) (sorted_mul _ _) hcur' (fun e he => le_of_lt (hl.1 e he))
    refine ⟨h1, ?_⟩
    rw [h2, toPoly_add hres (sorted_mul _ _), toPoly_mul (sorted_mul _ _) (sorted_fromScalar _),
      hcur', toPoly_fromScalar]
    simp [add_assoc]

theorem sorted_compose {p s : Pol T} (hp : Sorted p) (hs : Sorted s) :
    Sorted (compose p s) := by
  unfold compose
  exact (compose_loop hs p hp _ _ 0 (sorted_fromScalar _) (sorted_fromScalar _)
    (by rw [toPoly_fromScalar, map_one, pow_zero]) (fun _ _ => Nat.zero_le _)).1

theorem toPoly_compose {p s : Pol T} (hp : Sorted p) (hs : Sorted s) :
    toPoly (compose p s) = (toPoly p).comp (toPoly s) := by
  have h := (compose_loop hs p hp (fromScalar 0) (fromScalar 1) 0 (sorted_fromScalar _)
    (sorted_fromScalar _)
    (by rw [toPoly_fromScalar, map_one, pow_zero]) (fun _ _ => Nat.zero_le _)).2
  unfold compose
  rw [h, toPoly_fromScalar, map_zero, zero_add, toPoly_eq_sum hp]
  clear h
  induction p with
  | nil => simp
  | cons a rest ih =>
    simp only [List.map_cons, List.sum_cons, add_comp, monomial_comp]
    rw [ih (sorted_cons.1 hp).2]
    ring

/-! ### Last term, `back()` and `Degree()` -/

theorem getLast?_mem {p : Pol T} {e : Nat × T} (h : p.getLast? = some e) : e ∈ p :=
  List.mem_of_getLast?_eq_some h

theorem exists_getLast? {p : Pol T} (h : p ≠ []) : ∃ e, p.getLast? = some e :=
  ⟨p.getLast h, List.getLast?_eq_getLast _ h⟩

theorem toPoly_ne_zero {p : Pol T} (hp : Sorted p) (hz : ZeroFree p) (hne : p ≠ []) :
    toPoly p ≠ 0 := by
  obtain ⟨e, he⟩ := exists_getLast? hne
  intro h0
  have := coeffAt_of_mem hp (getLast?_mem he)
  rw [← coeff_toPoly, h0, coeff_zero] at this
  exact hz e (getLast?_mem he) this.symm

theorem eq_nil_of_toPoly_eq_zero {p : Pol T} (hp : Sorted p) (hz : ZeroFree p)
    (h : toPoly p = 0) : p = [] := by
  by_contra hne
  exact toPoly_ne_zero hp hz hne h

theorem zeroFree_compose (p s : Pol T) : ZeroFree (compose p s) := by
  unfold compose
  have key : ∀ (l : Pol T) (st : Pol T × Pol T × Nat), ZeroFree st.1 →
      ZeroFree (l.foldl (fun (st : Pol T × Pol T × Nat) e =>
        let cur := mul st.2.1 (FastPow (fromScalar (1 : T)) mul s (e.1 - st.2.2))
        (add st.1 (mul cur (fromScalar e.2)), cur, e.1)) st).1 := by
    intro l
    induction l with
    | nil => intro st h; exact h
    | cons a rest ih =>
      intro st _
      rw [List.foldl_cons]
      exact ih _ (zeroFree_add _ _)
  exact key p _ (zeroFree_fromScalar _)

end Denotation

/-! ## Long division -/

section Division

open Polynomial

variable {T : Type} [Field T] [DecidableEq T]

end Division

/-! ## Fuel -/

section Fuel

variable {T : Type} [Zero T] [One T] [Add T] [Sub T] [Mul T] [Div T] [DecidableEq T]

/-- A value the division loop returns is returned with any larger fuel too. -/
theorem divLoop_fuel_succ (q : Pol T) : ∀ (fuel : Nat) (p res : Pol T) (deg : Int)
    (r : Pol T × Pol T), divLoop q fuel p res deg = .ok r →
    divLoop q (fuel + 1) p res deg = .ok r := by
  intro fuel
  induction fuel with
  | zero =>
    intro p res deg r h
    rw [divLoop] at h
    by_cases hd : deg < 0
    · rw [if_pos hd] at h
      rw [divLoop, if_pos hd, h]
    · rw [if_neg hd] at h; cases h
  | succ n ih =>
    intro p res deg r h
    rw [divLoop] at h
    by_cases hd : deg < 0
    · rw [if_pos hd] at h
      rw [divLoop, if_pos hd, h]
    · rw [if_neg hd] at h
      rw [divLoop, if_neg hd]
      cases hb : back p with
      | error e => rw [hb] at h; cases h
      | ok pb =>
        cases hq : back q with
        | error e => rw [hb, hq] at h; cases h
        | ok qb =>
          cases hc : cdiv pb qb with
          | error e => rw [hb, hq] at h; simp only [bind, Except.bind, hc] at h; cases h
          | ok d =>
            rw [hb, hq] at h
            simp only [bind, Except.bind, hc] at h ⊢
            exact ih _ _ _ _ h

theorem divLoop_fuel_mono (q : Pol T) {fuel fuel' : Nat} (hle : fuel ≤ fuel') (p res : Pol T)
    (deg : Int) (r : Pol T × Pol T) (h : divLoop q fuel p res deg = .ok r) :
    divLoop q fuel' p res deg = .ok r := by
  induction hle with
  | refl => exact h
  | step _ ih => exact divLoop_fuel_succ q _ p res deg r ih

/-- A quotient `operator/` returns is returned with any larger fuel too. -/
theorem div_fuel_mono {fuel fuel' : Nat} (hle : fuel ≤ fuel') (p q d : Pol T)
    (h : div fuel p q = .ok d) : div fuel' p q = .ok d := by
  unfold div at h ⊢
  by_cases hd : Degree p - Degree q < 0
  · simp only [if_pos hd] at h ⊢; exact h
  · simp only [if_neg hd] at h ⊢
    cases hl : divLoop q fuel p [] (Degree p - Degree q) with
    | error e => rw [hl] at h; cases h
    | ok r =>
      rw [hl] at h
      rw [divLoop_fuel_mono q hle p [] _ r hl]
      exact h

/-- A remainder `operator%` returns is returned with any larger fuel too. -/
theorem mod_fuel_mono {fuel fuel' : Nat} (hle : fuel ≤ fuel') (p q r : Pol T)
    (h : mod fuel p q = .ok r) : mod fuel' p q = .ok r := by
  unfold mod at h ⊢
  cases hd : div fuel p q with
  | error e => rw [hd] at h; cases h
  | ok d =>
    rw [hd] at h
    rw [div_fuel_mono hle p q d hd]
    exact h

end Fuel

/-! ## Construction -/

section Construction

variable {T : Type} [CommRing T] [DecidableEq T]

end Construction

/-! ## Composition as the specification words it -/

section SpecSide

open Polynomial

variable {T : Type} [CommRing T] [DecidableEq T]

theorem powSpec_spec {s : Pol T} (hs : Sorted s) (d : Nat) :
    Sorted (powSpec s d) ∧ toPoly (powSpec s d) = toPoly s ^ d := by
  induction d with
  | zero =>
    refine ⟨sorted_fromScalar _, ?_⟩
    rw [powSpec, toPoly_fromScalar, map_one, pow_zero]
  | succ n ih =>
    refine ⟨sorted_mul _ _, ?_⟩
    rw [powSpec, toPoly_mul ih.1 hs, ih.2, pow_succ]

theorem composeSpec_loop {s : Pol T} (hs : Sorted s) (l : Pol T) :
    ∀ acc : Pol T, Sorted acc → ZeroFree acc →
    Sorted (l.foldl (fun acc e => add acc (mul (fromScalar e.2) (powSpec s e.1))) acc) ∧
    ZeroFree (l.foldl (fun acc e => add acc (mul (fromScalar e.2) (powSpec s e.1))) acc) ∧
    toPoly (l.foldl (fun acc e => add acc (mul (fromScalar e.2) (powSpec s e.1))) acc)
      = toPoly acc + (l.map (fun e => C e.2 * toPoly s ^ e.1)).sum := by
  induction l with
  | nil => intro acc h1 h2; simp [h1, h2]
  | cons a rest ih =>
    intro acc h1 _
    obtain ⟨i1, i2, i3⟩ := ih (add acc (mul (fromScalar a.2) (powSpec s a.1)))
      (sorted_add _ _) (zeroFree_add _ _)
    refine ⟨i1, i2, ?_⟩
    rw [List.foldl_cons, i3, toPoly_add h1 (sorted_mul _ _),
      toPoly_mul (sorted_fromScalar _) (powSpec_spec hs _).1, toPoly_fromScalar,
      (powSpec_spec hs _).2]
    simp [add_assoc]

theorem toPoly_composeSpec {p s : Pol T} (hp : Sorted p) (hs : Sorted s) :
    toPoly (composeSpec p s) = (toPoly p).comp (toPoly s) := by
  unfold composeSpec
  rw [(composeSpec_loop hs p _ (sorted_fromScalar _) (zeroFree_fromScalar _)).2.2,
    toPoly_fromScalar, map_zero, zero_add, toPoly_eq_sum hp]
  clear hp
  induction p with
  | nil => simp
  | cons a rest ih =>
    simp only [List.map_cons, List.sum_cons, add_comp, monomial_comp]
    rw [ih]

end SpecSide

/-! ## Rendering -/

section Rendering

variable {T : Type} [Zero T] [One T] [Neg T] [LT T] [DecidableRel (fun a b : T => a < b)]
  [DecidableEq T]

theorem concatSpec_cons (text : T → String) (e : Nat × T) (rest : List (Nat × T)) :
    concatSpec text (e :: rest) = termSpec text false e ++ concatSpec text rest := rfl

/-- One pass of the rendering loop on a term of nonzero degree and coefficient writes
the rule of the specification for it. -/
theorem renderLoop_step (text : T → String) (h1 : (-1 : T) ≠ 1) (b : Bool) (out : String)
    (i : Nat) (cur : T) (rest : List (Nat × T)) (hcur : cur ≠ 0) (hi : i ≠ 0) :
    renderLoop text b ((i, cur) :: rest) out
      = renderLoop text false rest (out ++ termSpec text b (i, cur)) := by
  rw [renderLoop, if_neg hcur]
  simp only [if_neg hi]
  congr 1
  have h2 : (2 ≤ i) ↔ (i > 1) := by omega
  simp only [termSpec, if_neg hi, h2]
  by_cases hm : cur = -1
  · have hne : cur ≠ 1 := by rw [hm]; exact h1
    simp only [if_pos hm, if_neg hne]
    split_ifs <;>
      first
        | rfl
        | simp only [String.append_assoc, String.append_empty, String.empty_append]
  · by_cases ho : cur = 1
    · simp only [if_neg hm, if_pos ho, ne_eq, not_true_eq_false, if_false]
      split_ifs <;>
      first
        | rfl
        | simp only [String.append_assoc, String.append_empty, String.empty_append]
    · simp only [if_neg hm, if_neg ho, ne_eq, not_false_eq_true, if_true]
      split_ifs <;>
      first
        | rfl
        | simp only [String.append_assoc, String.append_empty, String.empty_append]

/-- The pass on the term of degree 0 writes the bare coefficient and leaves the loop. -/
theorem renderLoop_last (text : T → String) (b : Bool) (out : String)
    (cur : T) (rest : List (Nat × T)) (hcur : cur ≠ 0) :
    renderLoop text b ((0, cur) :: rest) out = out ++ termSpec text b (0, cur) := by
  rw [renderLoop, if_neg hcur]
  simp only [termSpec, if_true]
  split_ifs <;>
      first
        | rfl
        | simp only [String.append_assoc, String.append_empty, String.empty_append]

/-- The rendering loop writes the rule of the specification for each term, on terms
in strictly descending degree order without zero coefficients. -/
theorem renderLoop_eq (text : T → String) (h1 : (-1 : T) ≠ 1) (rest : List (Nat × T)) :
    ∀ (b : Bool) (out : String) (e : Nat × T),
      (e :: rest).Pairwise (fun a c => c.1 < a.1) → (∀ x ∈ e :: rest, x.2 ≠ 0) →
      renderLoop text b (e :: rest) out
        = out ++ (termSpec text b e ++ concatSpec text rest) := by
  induction rest with
  | nil =>
    intro b out e _ hz
    obtain ⟨i, cur⟩ := e
    have hcur : cur ≠ 0 := hz (i, cur) (List.mem_cons_self _ _)
    by_cases hi : i = 0
    · subst hi
      rw [renderLoop_last text b out cur [] hcur]
      simp [concatSpec]
    · rw [renderLoop_step text h1 b out i cur [] hcur hi]
      simp [renderLoop, concatSpec]
  | cons e' r' ih =>
    intro b out e hs hz
    obtain ⟨i, cur⟩ := e
    have hcur : cur ≠ 0 := hz (i, cur) (List.mem_cons_self _ _)
    rw [List.pairwise_cons] at hs
    have hi : i ≠ 0 := by
      have := hs.1 e' (List.mem_cons_self _ _)
      simp at this; omega
    rw [renderLoop_step text h1 b out i cur _ hcur hi,
      ih false _ e' hs.2 (fun x hx => hz x (List.mem_cons_of_mem _ hx)), concatSpec_cons,
      String.append_assoc]

/-- The text written by `operator<<` is the rendering of the specification, for a
coefficient type in which `-1` and `1` differ. -/
theorem render_refines (text : T → String) (p : Pol T) (hp : Sorted p)
    (hz : ZeroFree p) (h1 : (-1 : T) ≠ 1) : render text p = renderSpec text p := by
  unfold render renderSpec
  by_cases hne : p = []
  · subst hne; simp [size]
  · have hsz : ¬ size p = 0 := by
      unfold size; simpa using hne
    rw [if_neg hsz]
    have hrs : p.reverse.Pairwise (fun a c => c.1 < a.1) := by
      rw [List.pairwise_reverse]; exact hp
    have hrz : ∀ e ∈ p.reverse, e.2 ≠ 0 := fun e he => hz e (List.mem_reverse.1 he)
    cases hr : p.reverse with
    | nil => exact absurd (List.reverse_eq_nil_iff.1 hr) hne
    | cons e rest =>
      rw [hr] at hrs hrz
      rw [renderLoop_eq text h1 rest true "" e hrs hrz]
      simp

end Rendering

/-! ## Passes of the division loop -/

section Passes

variable {T : Type} [Zero T] [One T] [Add T] [Sub T] [Mul T] [Div T] [DecidableEq T]

/-- Each unit of fuel pays for one pass of the loop body. -/
theorem divLoop_succ_eq (q : Pol T) (n : Nat) (p res : Pol T) (deg : Int) :
    divLoop q (n + 1) p res deg
      = if deg < 0 then .ok (res, p)
        else divBody q p res deg >>= fun r => divLoop q n r.2 r.1 (Degree r.2 - Degree q) := by
  rw [divLoop]
  by_cases hd : deg < 0
  · rw [if_pos hd, if_pos hd]
  · rw [if_neg hd, if_neg hd]
    unfold divBody
    cases back p with
    | error e => rfl
    | ok pb =>
      cases back q with
      | error e => rfl
      | ok qb =>
        simp only [bind, Except.bind]
        cases cdiv pb qb with
        | error e => rfl
        | ok d => rfl

end Passes

section PassesField

open Polynomial

variable {T : Type} [Field T] [DecidableEq T]

end PassesField

section ZeroDivisor

variable {T : Type} [Field T] [DecidableEq T]

theorem back_nil : back ([] : Pol T) = .error .emptyBack := rfl

end ZeroDivisor

section IntegerLoop

theorem divLoop_int_stuck : ∀ (fuel : Nat) (res : Pol CInt),
    divLoop ([(1, ⟨2⟩)] : Pol CInt) fuel [(1, ⟨1⟩)] res 0 = .error .outOfFuel := by
  intro fuel
  induction fuel with
  | zero => intro res; rfl
  | succ n ih =>
    intro res
    rw [divLoop_succ_eq, if_neg (by decide)]
    have hb : divBody ([(1, ⟨2⟩)] : Pol CInt) [(1, ⟨1⟩)] res 0
        = .ok (modify (fun _ => ⟨0⟩) 0 res, [(1, ⟨1⟩)]) := rfl
    rw [hb]
    exact ih _

end IntegerLoop

/-! ## The contract -/

section FieldContract

open Polynomial

variable {T : Type} [Field T] [DecidableEq T]

end FieldContract

section RingContract

open Polynomial

variable {T : Type} [CommRing T] [DecidableEq T]

/-- C6 (distributivity). Over a commutative ring, for all stored mappings `p`, `q`, `r`
(zero-free or not), `p * (q + r)` and `p * q + p * r` are the same stored mapping. -/
theorem mul_add_distrib (p q r : Pol T) (hp : Sorted p) (hq : Sorted q) (hr : Sorted r) :
    mul p (add q r) = add (mul p q) (mul p r) := by
  apply eq_of_toPoly_eq (sorted_mul _ _) (zeroFree_mul _ _) (sorted_add _ _) (zeroFree_add _ _)
  rw [toPoly_mul hp (sorted_add _ _), toPoly_add hq hr,
    toPoly_add (sorted_mul _ _) (sorted_mul _ _), toPoly_mul hp hq, toPoly_mul hp hr, mul_add]

theorem mul_add_distrib_witness :
    Sorted ([(0, 1), (2, 3)] : Pol ℤ) ∧ Sorted ([(1, 2)] : Pol ℤ) ∧
    Sorted ([(1, -2), (5, 1)] : Pol ℤ) ∧
    mul ([(0, 1), (2, 3)] : Pol ℤ) (add [(1, 2)] [(1, -2), (5, 1)])
      = add (mul [(0, 1), (2, 3)] [(1, 2)]) (mul [(0, 1), (2, 3)] [(1, -2), (5, 1)]) :=
  ⟨by decide, by decide, by decide,
    mul_add_distrib _ _ _ (by decide) (by decide) (by decide)⟩

/-- C7 (additive identity and inverse). For every zero-free stored mapping `p`,
`p + zeroPolynomial` is `p` and `p - p` is the zero polynomial, which is the empty
mapping. -/
theorem add_zero_sub_self (p : Pol T) (hp : Sorted p) (hz : ZeroFree p) :
    add p (fromScalar 0) = p ∧ sub p p = fromScalar 0 ∧ fromScalar (0 : T) = [] := by
  have h0 : fromScalar (0 : T) = [] := by simp [fromScalar]
  refine ⟨?_, ?_, h0⟩
  · apply eq_of_toPoly_eq (sorted_add _ _) (zeroFree_add _ _) hp hz
    rw [toPoly_add hp (sorted_fromScalar _), toPoly_fromScalar, map_zero, add_zero]
  · rw [h0]
    apply eq_nil_of_toPoly_eq_zero (sorted_sub _ _) (zeroFree_sub _ _)
    rw [toPoly_sub hp hp, sub_self]

theorem add_zero_sub_self_witness :
    Sorted ([(0, 1), (2, -3)] : Pol ℤ) ∧ ZeroFree ([(0, 1), (2, -3)] : Pol ℤ) ∧
    (add ([(0, 1), (2, -3)] : Pol ℤ) (fromScalar 0) = [(0, 1), (2, -3)] ∧
      sub ([(0, 1), (2, -3)] : Pol ℤ) [(0, 1), (2, -3)] = fromScalar 0 ∧
      fromScalar (0 : ℤ) = []) :=
  ⟨by decide, by decide, add_zero_sub_self _ (by decide) (by decide)⟩

/-- C9 (evaluation is additive). For all stored mappings `p`, `q` and every scalar `x`,
`(p + q)(x) = p(x) + q(x)`. -/
theorem eval_add_eq (p q : Pol T) (x : T) (hp : Sorted p) (hq : Sorted q) :
    eval (add p q) x = eval p x + eval q x := by
  rw [eval_eq (sorted_add _ _), eval_eq hp, eval_eq hq, toPoly_add hp hq, eval_add]

theorem eval_add_eq_witness :
    Sorted ([(0, 1), (2, -3)] : Pol ℤ) ∧ Sorted ([(1, 2), (2, 3)] : Pol ℤ) ∧
    eval (add ([(0, 1), (2, -3)] : Pol ℤ) [(1, 2), (2, 3)]) 5
      = eval ([(0, 1), (2, -3)] : Pol ℤ) 5 + eval ([(1, 2), (2, 3)] : Pol ℤ) 5 :=
  ⟨by decide, by decide, eval_add_eq _ _ 5 (by decide) (by decide)⟩

/-- C10 (composition commutes with evaluation). For all stored mappings `p`, `s` and every
scalar `x`, `(p & s)(x) = p(s(x))`. -/
theorem eval_compose (p s : Pol T) (x : T) (hp : Sorted p) (hs : Sorted s) :
    eval (compose p s) x = eval p (eval s x) := by
  rw [eval_eq (sorted_compose hp hs), toPoly_compose hp hs, eval_comp, eval_eq hp, eval_eq hs]

theorem eval_compose_witness :
    Sorted ([(0, 1), (2, 1)] : Pol ℤ) ∧ Sorted ([(0, 1), (4, 1)] : Pol ℤ) ∧
    eval (compose ([(0, 1), (2, 1)] : Pol ℤ) [(0, 1), (4, 1)]) 10
      = eval ([(0, 1), (2, 1)] : Pol ℤ) (eval ([(0, 1), (4, 1)] : Pol ℤ) 10) :=
  ⟨by decide, by decide, eval_compose _ _ 10 (by decide) (by decide)⟩

end RingContract

section RingContractCont

open Polynomial

variable {T : Type} [CommRing T] [DecidableEq T]

/-- C12 (evaluation correctness). For every stored mapping `p` and scalar `x`, `p(x)` is
the sum over the stored terms `(d, c)` of `c * x^d`; the zero polynomial evaluates to
`T(0)`. -/
theorem eval_eq_sum (p : Pol T) (x : T) (hp : Sorted p) :
    eval p x = (p.map (fun e => e.2 * x ^ e.1)).sum ∧ eval (fromScalar (0 : T)) x = 0 := by
  constructor
  · have h := eval_loop x p hp 0 0 (fun _ _ => Nat.zero_le _)
    rw [pow_zero] at h
    unfold eval
    rw [h, zero_add]
    congr 1
    apply List.map_congr_left
    intro e _
    exact mul_comm _ _
  · simp [fromScalar, eval]

theorem eval_eq_sum_witness :
    Sorted (fromRange ([1, 0, 0, 0, 1, 0, 0, 0] : List ℤ)) ∧
    (eval (fromRange ([1, 0, 0, 0, 1, 0, 0, 0] : List ℤ)) 10
      = ((fromRange ([1, 0, 0, 0, 1, 0, 0, 0] : List ℤ)).map (fun e => e.2 * 10 ^ e.1)).sum ∧
      eval (fromScalar (0 : ℤ)) 10 = 0) ∧
    eval (fromRange ([1, 0, 0, 0, 1, 0, 0, 0] : List ℤ)) 10 = 10001 :=
  ⟨by decide, eval_eq_sum _ 10 (by decide),
    (eval_eq_sum (fromRange ([1, 0, 0, 0, 1, 0, 0, 0] : List ℤ)) 10 (by decide)).1.trans
      (by decide)⟩

/-- C13 (composition correctness). For all stored mappings `p` and `s`, `p & s` is the
polynomial sum over the stored terms `(d, c)` of `p` of `c * s^d`, with `s^d` the `d`-fold
product and `s^0` the constant polynomial `1`. -/
theorem compose_eq_composeSpec (p s : Pol T) (hp : Sorted p) (hs : Sorted s) :
    compose p s = composeSpec p s := by
  have h := composeSpec_loop hs p _ (sorted_fromScalar (0 : T)) (zeroFree_fromScalar _)
  have h1 : Sorted (composeSpec p s) := h.1
  have h2 : ZeroFree (composeSpec p s) := h.2.1
  apply eq_of_toPoly_eq (sorted_compose hp hs) (zeroFree_compose _ _) h1 h2
  rw [toPoly_compose hp hs, toPoly_composeSpec hp hs]

theorem compose_eq_composeSpec_witness :
    Sorted ([(0, 1), (2, 1)] : Pol ℤ) ∧ Sorted ([(0, 1), (4, 1)] : Pol ℤ) ∧
    compose ([(0, 1), (2, 1)] : Pol ℤ) [(0, 1), (4, 1)]
      = composeSpec [(0, 1), (2, 1)] [(0, 1), (4, 1)] ∧
    compose ([(0, 1), (2, 1)] : Pol ℤ) [(0, 1), (4, 1)] = [(0, 2), (4, 2), (8, 1)] :=
  ⟨by decide, by decide, compose_eq_composeSpec _ _ (by decide) (by decide),
    (compose_eq_composeSpec ([(0, 1), (2, 1)] : Pol ℤ) [(0, 1), (4, 1)] (by decide)
      (by decide)).trans (by decide)⟩

/-- C18 (coefficients of product, sum and difference). For all stored mappings `p`, `q`
and every degree `k`, `(p * q)[k]` is the sum of `p[i] * q[j]` over the pairs `i + j = k`,
`(p + q)[k] = p[k] + q[k]` and `(p - q)[k] = p[k] - q[k]`. -/
theorem coeffAt_mul_add_sub (p q : Pol T) (k : Nat) (hp : Sorted p) (hq : Sorted q) :
    coeffAt (mul p q) k = ∑ x ∈ Finset.antidiagonal k, coeffAt p x.1 * coeffAt q x.2 ∧
    coeffAt (add p q) k = coeffAt p k + coeffAt q k ∧
    coeffAt (sub p q) k = coeffAt p k - coeffAt q k := by
  refine ⟨?_, ?_, ?_⟩
  · rw [← coeff_toPoly, toPoly_mul hp hq, coeff_mul]
    rfl
  · rw [← coeff_toPoly, toPoly_add hp hq, coeff_add]
    rfl
  · rw [← coeff_toPoly, toPoly_sub hp hq, coeff_sub]
    rfl

theorem coeffAt_mul_add_sub_witness :
    Sorted ([(0, 1), (2, -3)] : Pol ℤ) ∧ Sorted ([(1, 2), (2, 3)] : Pol ℤ) ∧
    (coeffAt (mul ([(0, 1), (2, -3)] : Pol ℤ) [(1, 2), (2, 3)]) 3
        = ∑ x ∈ Finset.antidiagonal 3,
          coeffAt ([(0, 1), (2, -3)] : Pol ℤ) x.1 * coeffAt ([(1, 2), (2, 3)] : Pol ℤ) x.2 ∧
      coeffAt (add ([(0, 1), (2, -3)] : Pol ℤ) [(1, 2), (2, 3)]) 3
        = coeffAt ([(0, 1), (2, -3)] : Pol ℤ) 3 + coeffAt ([(1, 2), (2, 3)] : Pol ℤ) 3 ∧
      coeffAt (sub ([(0, 1), (2, -3)] : Pol ℤ) [(1, 2), (2, 3)]) 3
        = coeffAt ([(0, 1), (2, -3)] : Pol ℤ) 3 - coeffAt ([(1, 2), (2, 3)] : Pol ℤ) 3) :=
  ⟨by decide, by decide, coeffAt_mul_add_sub _ _ 3 (by decide) (by decide)⟩

end RingContractCont

section RenderingContract

variable {T : Type} [LinearOrderedRing T]

/-- C14 (canonical rendering). For every sorted zero-free stored mapping over an ordered
ring (such as the integers), the text written by `operator<<` is the concatenation, over
the stored terms in descending degree order, of the rule of the specification: `+` before
a positive coefficient that is not first, then the bare coefficient at degree 0, and
otherwise nothing for `1`, `-` for `-1` or `coefficient*`, followed by `x` and, from
degree 2 on, `^degree`. The zero polynomial renders as the text of `T(0)`. -/
theorem render_eq_renderSpec (text : T → String) (p : Pol T) (hp : Sorted p)
    (hz : ZeroFree p) :
    render text p = renderSpec text p ∧ render text (fromScalar 0) = text 0 := by
  have h1 : (-1 : T) ≠ 1 := by
    have : (-1 : T) < 1 := by
      have h0 : (0 : T) < 1 := zero_lt_one
      have h2 : (-1 : T) < 0 := neg_neg_of_pos h0
      exact lt_trans h2 h0
    exact ne_of_lt this
  exact ⟨render_refines text p hp hz h1, by simp [fromScalar, render, size]⟩

theorem render_eq_renderSpec_witness :
    Sorted ([(0, 2), (4, 2), (8, 1)] : Pol ℤ) ∧ ZeroFree ([(0, 2), (4, 2), (8, 1)] : Pol ℤ) ∧
    (render (fun z : ℤ => toString z) [(0, 2), (4, 2), (8, 1)]
        = renderSpec (fun z : ℤ => toString z) [(0, 2), (4, 2), (8, 1)] ∧
      render (fun z : ℤ => toString z) (fromScalar 0) = toString (0 : ℤ)) ∧
    render (fun z : ℤ => toString z) [(0, 2), (4, 2), (8, 1)] = "x^8+2*x^4+2" :=
  ⟨by decide, by decide, render_eq_renderSpec _ _ (by decide) (by decide), by decide⟩

end RenderingContract

section LowDegree

open Polynomial

variable {T : Type} [CommRing T] [Div T] [DecidableEq T]

end LowDegree

section DivisionContract

open Polynomial

variable {T : Type} [Field T] [DecidableEq T]

end DivisionContract

section IntegerDivision

/-- C20 (no progress for a non-field coefficient type). With `int` coefficients, for
`p = x` and `q = 2x` (both nonzero, `Degree(p) >= Degree(q)`): the factor of a pass is
`1 / 2 = 0`, the pass stores the coefficient `0` in the quotient, which is then not
zero-free, and leaves the working dividend unchanged; the loop test stays true and
`p / q` runs out of every amount of fuel. -/
theorem div_int_no_progress :
    ([(1, ⟨1⟩)] : Pol CInt) ≠ [] ∧ ([(1, ⟨2⟩)] : Pol CInt) ≠ [] ∧
    ZeroFree ([(1, ⟨1⟩)] : Pol CInt) ∧ ZeroFree ([(1, ⟨2⟩)] : Pol CInt) ∧
    Degree ([(1, ⟨2⟩)] : Pol CInt) ≤ Degree ([(1, ⟨1⟩)] : Pol CInt) ∧
    cdiv (⟨1⟩ : CInt) ⟨2⟩ = .ok 0 ∧
    divBody ([(1, ⟨2⟩)] : Pol CInt) [(1, ⟨1⟩)] [] 0 = .ok ([(0, 0)], [(1, ⟨1⟩)]) ∧
    ¬ ZeroFree ([(0, 0)] : Pol CInt) ∧
    ¬ (Degree ([(1, ⟨1⟩)] : Pol CInt) - Degree ([(1, ⟨2⟩)] : Pol CInt) < 0) ∧
    (∀ fuel res, divLoop ([(1, ⟨2⟩)] : Pol CInt) fuel [(1, ⟨1⟩)] res 0 = .error .outOfFuel) ∧
    ∀ fuel, div fuel ([(1, ⟨1⟩)] : Pol CInt) [(1, ⟨2⟩)] = .error .outOfFuel := by
  refine ⟨by decide, by decide, by decide, by decide, by decide, rfl, rfl, by decide,
    by decide, divLoop_int_stuck, ?_⟩
  intro fuel
  unfold div
  have h0 : Degree ([(1, ⟨1⟩)] : Pol CInt) - Degree ([(1, ⟨2⟩)] : Pol CInt) = 0 := by decide
  simp only [h0, divLoop_int_stuck, bind, Except.bind]
  rfl

end IntegerDivision

end SparsePolynomial
